import Mathlib

/-!
Verification of PyAddressSet (`src/address_set.py`, `src/address_set_view.py`).

The development shallowly embeds the Python sources:

* `Address` objects carry a single unbounded integer `offset`; we model an
  address directly by its offset, an `Int`.
* `AddressRange` is a pair of addresses; its constructor raises when
  `end < start`, modelled by `mkAddressRange : Int → Int → Except String AddressRange`.
* `RedBlackTree` is the CLRS-style red-black tree with parent pointers of
  `address_set.py`.  The mutable pointer structure is rendered functionally:
  the descent of `insert` records the path from the root to the insertion
  point as a list of `Frame`s (each frame holds the fields of one ancestor
  node: its color, key, value, and the untouched sibling subtree, plus which
  side the descent continued on).  `insert_fixup` consumes that path exactly
  as the Python `while z.parent.color == RED` loop walks the parent pointers:
  the head frame is `z.parent`, the next frame is `z.parent.parent`, case 1
  (red uncle) recolors and pops two frames, cases 2/3 perform the
  corresponding rotations at the grandparent and terminate the loop.  The
  rewritten subtrees below are the literal results of the Python
  `left_rotate` / `right_rotate` calls on these three nodes.
* `AddressSet` is the container: the tree plus the running `address_count`.
-/

/-- Python `Address.next`: `Address(self.offset + 1)`. -/
def Address.next (a : Int) : Int := a + 1

/-- Python `Address.previous`: `Address(self.offset - 1)`. -/
def Address.previous (a : Int) : Int := a - 1

/-- Python `Address.subtract`: `self.offset - other.offset`. -/
def Address.subtract (a b : Int) : Int := a - b

/-- Modelled from the spec: `Address.compare_to` is declared in
`src/address_set_view.py` with an empty (`pass`) body and is absent from the
concrete `Address` of `src/address_set.py`.  The spec makes `Address` a
totally ordered scalar, so `compare_to` is the sign of the difference:
positive iff `a > b`, negative iff `a < b`, zero iff equal.  (It is used by
`trim_start` / `trim_end` only through comparisons with `0`.) -/
def Address.compare_to (a b : Int) : Int := a - b

/-- Python `AddressRange`: a pair `(start, end)` of addresses.  The raising
constructor is modelled separately by `mkAddressRange`. -/
structure AddressRange where
  start : Int
  «end» : Int
  deriving DecidableEq

/-- Python `AddressRange.__init__`: raises `ValueError` when `end < start`,
otherwise stores `start` and `end` unchanged. -/
def mkAddressRange (start «end» : Int) : Except String AddressRange :=
  if «end» < start then
    Except.error "End address must not be less than start address"
  else
    Except.ok ⟨start, «end»⟩

/-- Python `AddressRange.contains`: `self.start <= addr <= self.end`. -/
def AddressRange.containsAddr (r : AddressRange) (addr : Int) : Bool :=
  r.start ≤ addr && addr ≤ r.«end»

/-- Python `AddressRange.get_min_address`. -/
def AddressRange.get_min_address (r : AddressRange) : Int := r.start

/-- Python `AddressRange.get_max_address`. -/
def AddressRange.get_max_address (r : AddressRange) : Int := r.«end»

/-- Python `AddressRange.get_length`: `end.offset - start.offset + 1`. -/
def AddressRange.get_length (r : AddressRange) : Int := r.«end» - r.start + 1

/-- The two node colors of `RBNode` (`RED = True`, `BLACK = False`). -/
inductive RBColor where
  | red
  | black
  deriving DecidableEq

/-- The tree reachable from a node: `nil` is the always-black sentinel,
`node` carries the color bit, the key (range start), the value (range end)
and the two child links of an `RBNode`. -/
inductive RBTree where
  | nil
  | node (color : RBColor) (key : Int) (value : Int) (left : RBTree) (right : RBTree)
  deriving DecidableEq

/-- The side of a parent node on which a child hangs. -/
inductive Dir where
  | left
  | right
  deriving DecidableEq

/-- One ancestor on the descent path of `insert`: the fields of the ancestor
node other than the descended-into child.  `dir` is the side the descent
took, `sibling` the child on the other side. -/
structure Frame where
  dir : Dir
  color : RBColor
  key : Int
  value : Int
  sibling : RBTree
  deriving DecidableEq

/-- Rebuild the tree from a subtree and the path of ancestors above it
(innermost ancestor first): the inverse of the descent. -/
def plug (t : RBTree) (path : List Frame) : RBTree :=
  match path with
  | [] => t
  | f :: p =>
    match f.dir with
    | Dir.left => plug (RBTree.node f.color f.key f.value t f.sibling) p
    | Dir.right => plug (RBTree.node f.color f.key f.value f.sibling t) p

/-- The descent loop of Python `RedBlackTree.insert`:
`while x != nil: y = x; x = x.left if z.key < x.key else x.right`.
Records each visited node as a `Frame`; on return the accumulated path leads
from the insertion point (a `nil` position) back to the root. -/
def descendAux (t : RBTree) (k : Int) (path : List Frame) : List Frame :=
  match t with
  | RBTree.nil => path
  | RBTree.node c k0 v0 l r =>
    if k < k0 then descendAux l k (⟨Dir.left, c, k0, v0, r⟩ :: path)
    else descendAux r k (⟨Dir.right, c, k0, v0, l⟩ :: path)

/-- Recolor the root of a subtree black (`self.root.color = BLACK`). -/
def setBlack (t : RBTree) : RBTree :=
  match t with
  | RBTree.nil => RBTree.nil
  | RBTree.node _ k v l r => RBTree.node RBColor.black k v l r

/-- Rebuild a parent node from its frame with the focused child back in its
slot, overriding the parent's color (used by fixup case 1, which sets
`z.parent.color = BLACK`). -/
def attach (f : Frame) (c : RBColor) (z : RBTree) : RBTree :=
  match f.dir with
  | Dir.left => RBTree.node c f.key f.value z f.sibling
  | Dir.right => RBTree.node c f.key f.value f.sibling z

/-- Python `RedBlackTree.insert_fixup`, driven by the descent path instead of
parent pointers.  `z` is the current focus (initially the freshly inserted
red node); the head frame is `z.parent`, the second frame `z.parent.parent`.

* empty path: `z` is the root, `z.parent` is the black sentinel, the loop
  does not run; the final `self.root.color = BLACK` blackens `z`.
* one frame: if the parent is black the loop does not run and the
  reassembled root is blackened.  A red parent with no grandparent would be
  a red root, which is impossible (every insert ends by blackening the
  root); the fallback mirrors loop exit.
* two or more frames with a red parent: the three CLRS cases.  A red uncle
  recolors parent, uncle and grandparent and moves `z` to the grandparent
  (`z = z.parent.parent`), popping two frames.  Otherwise the zig-zag case
  first rotates at the parent (`left_rotate(z)` after `z = z.parent`, or its
  mirror) and then the straight case recolors and rotates at the
  grandparent, after which `z.parent` is black and the loop exits; the node
  written below each such case is the subtree that the two Python rotations
  leave in the grandparent's position. -/
def insert_fixup (z : RBTree) (path : List Frame) : RBTree :=
  match path with
  | [] => setBlack z
  | [f] =>
    setBlack (plug z [f])
  | f :: g :: p =>
    if f.color = RBColor.black then
      setBlack (plug z (f :: g :: p))
    else
      match g.dir with
      | Dir.left =>
        match g.sibling with
        | RBTree.node RBColor.red uk uv ul ur =>
          insert_fixup
            (RBTree.node RBColor.red g.key g.value (attach f RBColor.black z)
              (RBTree.node RBColor.black uk uv ul ur)) p
        | u =>
          match f.dir, z with
          | Dir.left, z =>
            setBlack (plug (RBTree.node RBColor.black f.key f.value z
              (RBTree.node RBColor.red g.key g.value f.sibling u)) p)
          | Dir.right, RBTree.node _ zk zv zl zr =>
            setBlack (plug (RBTree.node RBColor.black zk zv
              (RBTree.node RBColor.red f.key f.value f.sibling zl)
              (RBTree.node RBColor.red g.key g.value zr u)) p)
          | Dir.right, RBTree.nil =>
            setBlack (plug z (f :: g :: p))
      | Dir.right =>
        match g.sibling with
        | RBTree.node RBColor.red uk uv ul ur =>
          insert_fixup
            (RBTree.node RBColor.red g.key g.value
              (RBTree.node RBColor.black uk uv ul ur) (attach f RBColor.black z)) p
        | u =>
          match f.dir, z with
          | Dir.right, z =>
            setBlack (plug (RBTree.node RBColor.black f.key f.value
              (RBTree.node RBColor.red g.key g.value u f.sibling) z) p)
          | Dir.left, RBTree.node _ zk zv zl zr =>
            setBlack (plug (RBTree.node RBColor.black zk zv
              (RBTree.node RBColor.red g.key g.value u zl)
              (RBTree.node RBColor.red f.key f.value zr f.sibling)) p)
          | Dir.left, RBTree.nil =>
            setBlack (plug z (f :: g :: p))

/-- Python `RedBlackTree.insert`: descend from the root comparing
`z.key < x.key`, attach a red node with nil children at the reached leaf
position, then run `insert_fixup`. -/
def RedBlackTree.insert (t : RBTree) (key value : Int) : RBTree :=
  insert_fixup (RBTree.node RBColor.red key value RBTree.nil RBTree.nil)
    (descendAux t key [])

/-- Python `RedBlackTree.inorder`: in-order traversal yielding the
`(key, value)` pairs of all non-nil nodes. -/
def inorder (t : RBTree) : List (Int × Int) :=
  match t with
  | RBTree.nil => []
  | RBTree.node _ k v l r => inorder l ++ (k, v) :: inorder r

/-- Python `RedBlackTree.find_range_containing`: walk from the root; go left
when `addr < node.key`, right when `addr > node.value`, otherwise return the
node.  Returns `none` when the walk reaches nil. -/
def find_range_containing (t : RBTree) (addr : Int) : Option (Int × Int) :=
  match t with
  | RBTree.nil => none
  | RBTree.node _ k v l r =>
    if addr < k then find_range_containing l addr
    else if v < addr then find_range_containing r addr
    else some (k, v)

/-- Python `AddressSet`: one red-black tree plus the running
`address_count`. -/
structure AddressSet where
  tree : RBTree
  address_count : Int
  deriving DecidableEq

/-- Python `AddressSet()` with no initial range: empty tree, count `0`. -/
def AddressSet.empty : AddressSet := ⟨RBTree.nil, 0⟩

/-- Python `AddressSet.add`: `tree.insert(range.start, range.end)` followed by
`address_count += range.get_length()`.  (Note: no merging of overlapping or
adjacent stored ranges takes place.) -/
def AddressSet.add (s : AddressSet) (r : AddressRange) : AddressSet :=
  ⟨RedBlackTree.insert s.tree r.start r.«end», s.address_count + r.get_length⟩

/-- Python `AddressSet.__init__`: optionally `add` one initial range. -/
def mkAddressSet (init_range : Option AddressRange) : AddressSet :=
  match init_range with
  | none => AddressSet.empty
  | some r => AddressSet.empty.add r

/-- Apply a sequence of `add` calls in order. -/
def applyAdds (s : AddressSet) (adds : List AddressRange) : AddressSet :=
  adds.foldl AddressSet.add s

/-- Python `AddressSet.get_address_ranges`: the in-order traversal of the
tree, each node re-wrapped as an `AddressRange(node.key, node.value)`. -/
def AddressSet.get_address_ranges (s : AddressSet) : List AddressRange :=
  (inorder s.tree).map (fun p => ⟨p.1, p.2⟩)

/-- Python `AddressSet.get_num_addresses`: returns `address_count`. -/
def AddressSet.get_num_addresses (s : AddressSet) : Int := s.address_count

/-- Python `AddressSet.contains` single-`Address` overload:
`find_range_containing(addr) is not None`. -/
def AddressSet.containsAddr (s : AddressSet) (addr : Int) : Bool :=
  (find_range_containing s.tree addr).isSome

/-- Python `AddressSet.contains` two-`Address` overload: the loop
`addr = start; while addr <= end: if not contains(addr): return False;
addr = addr.next()`, then `return True`. -/
def AddressSet.containsRange (s : AddressSet) (start stop : Int) : Bool :=
  if h : start ≤ stop then s.containsAddr start && s.containsRange (start + 1) stop
  else true
  termination_by (stop + 1 - start).toNat
  decreasing_by simp_wf; omega

/-- Python `AddressSet.contains` `AddressSetView` overload: every range of the
argument must pass the two-address check. -/
def AddressSet.containsSet (s : AddressSet) (other : AddressSet) : Bool :=
  other.get_address_ranges.all
    (fun r => s.containsRange r.get_min_address r.get_max_address)

/-- The three supported argument shapes of Python `AddressSet.contains(*args)`:
one address, two addresses, or another set. -/
inductive ContainsArgs where
  | addr (a : Int)
  | pair (start stop : Int)
  | set (v : AddressSet)

/-- Python `AddressSet.contains(*args)` dispatch.  Every supported shape
returns normally (`Except.ok`); the `TypeError` branch corresponds to
argument shapes outside `ContainsArgs` and is unreachable here. -/
def AddressSet.contains (s : AddressSet) (args : ContainsArgs) : Except String Bool :=
  match args with
  | ContainsArgs.addr a => Except.ok (s.containsAddr a)
  | ContainsArgs.pair a b => Except.ok (s.containsRange a b)
  | ContainsArgs.set v => Except.ok (s.containsSet v)

/-- Python `AddressSet.intersect`: nested loops over the ranges of both sets;
for each pair, `start = max(mins)`, `end = min(maxes)`; when `start <= end`
add `AddressRange(start, end)` to a fresh result set. -/
def AddressSet.intersect (a b : AddressSet) : AddressSet :=
  a.get_address_ranges.foldl
    (fun result r1 =>
      b.get_address_ranges.foldl
        (fun result r2 =>
          let s := max r1.get_min_address r2.get_min_address
          let e := min r1.get_max_address r2.get_max_address
          if s ≤ e then result.add ⟨s, e⟩ else result)
        result)
    AddressSet.empty

/-- Python `AddressSet.union`: add every range of `self`, then every range of
`other`, to a fresh result set. -/
def AddressSet.union (a b : AddressSet) : AddressSet :=
  b.get_address_ranges.foldl AddressSet.add
    (a.get_address_ranges.foldl AddressSet.add AddressSet.empty)

/-- Plain binary-search-tree leaf insertion: a specification device.  It
attaches the new red node at exactly the position `descendAux` reaches
(descend left when `k < k0`, right otherwise) and performs no rebalancing.
`insert_fixup` only rotates and recolors, so the real `insert` produces a
tree with the same in-order traversal (`inorder_insert` below). -/
def bstInsertPlain (t : RBTree) (k v : Int) : RBTree :=
  match t with
  | RBTree.nil => RBTree.node RBColor.red k v RBTree.nil RBTree.nil
  | RBTree.node c k0 v0 l r =>
    if k < k0 then RBTree.node c k0 v0 (bstInsertPlain l k v) r
    else RBTree.node c k0 v0 l (bstInsertPlain r k v)

/-- Insertion of a key/value pair into a key-sorted association list, after
every entry whose key is `≤ k`: the list-level effect of one tree insert. -/
def seqInsert (l : List (Int × Int)) (k v : Int) : List (Int × Int) :=
  match l with
  | [] => [(k, v)]
  | x :: xs => if x.1 ≤ k then x :: seqInsert xs k v else (k, v) :: x :: xs

/-- Sum of the closed-interval lengths `value - key + 1` of an association
list of ranges. -/
def sumLens (l : List (Int × Int)) : Int :=
  (l.map (fun p => p.2 - p.1 + 1)).sum

/-- Keys (range starts) of an association list in non-decreasing order. -/
def keysSorted (l : List (Int × Int)) : Prop :=
  List.Pairwise (fun p q => p.1 ≤ q.1) l

/-- Internal invariant of `AddressSet` maintained by `add`: the in-order
traversal is key-sorted and `address_count` is the sum of stored lengths. -/
def SetInv (s : AddressSet) : Prop :=
  keysSorted (inorder s.tree) ∧ s.address_count = sumLens (inorder s.tree)

/-- One iteration of the nested `intersect` loops as a partial map: the range
emitted for a pair of operand ranges, `[max(starts), min(ends)]`, when the
pair overlaps. -/
def intersectStep (r1 r2 : AddressRange) : Option AddressRange :=
  let s := max r1.get_min_address r2.get_min_address
  let e := min r1.get_max_address r2.get_max_address
  if s ≤ e then some ⟨s, e⟩ else none

/-- All ranges emitted by `intersect`, in emission order: one per overlapping
pair of operand ranges. -/
def intersectEmitted (a b : AddressSet) : List AddressRange :=
  a.get_address_ranges.flatMap
    (fun r1 => b.get_address_ranges.filterMap (fun r2 => intersectStep r1 r2))

/-- State visible to a two-operand method call: the receiver (`self`), the
operand (`other`) and the freshly allocated result set.  Used to express
that `intersect` and `union` write only into the result. -/
structure MethodState where
  selfSet : AddressSet
  otherSet : AddressSet
  result : AddressSet
  deriving DecidableEq

/-- Python `AddressSet.intersect` with the receiver and operand threaded as
explicit state: the loops read `self` and `other` and the only assignment is
`result.add(...)`, modelled by the record update of the `result` field. -/
def AddressSet.intersect_method (a b : AddressSet) : MethodState :=
  let st0 : MethodState := ⟨a, b, AddressSet.empty⟩
  st0.selfSet.get_address_ranges.foldl
    (fun st r1 =>
      st.otherSet.get_address_ranges.foldl
        (fun st r2 =>
          let s := max r1.get_min_address r2.get_min_address
          let e := min r1.get_max_address r2.get_max_address
          if s ≤ e then { st with result := st.result.add ⟨s, e⟩ } else st)
        st)
    st0

/-- Python `AddressSet.union` with the receiver and operand threaded as
explicit state. -/
def AddressSet.union_method (a b : AddressSet) : MethodState :=
  let st0 : MethodState := ⟨a, b, AddressSet.empty⟩
  let st1 := st0.selfSet.get_address_ranges.foldl
    (fun st r => { st with result := st.result.add r }) st0
  st1.otherSet.get_address_ranges.foldl
    (fun st r => { st with result := st.result.add r }) st1

/-- Placeholder `AddressSet` class of `src/address_set_view.py`: its only
method is `add(self, *args)` whose body is `pass`.  A fresh instance holds no
ranges and `add` never stores anything, so the collection of ranges such an
instance holds is always `[]`. -/
structure StubAddressSet where
  ranges : List AddressRange
  deriving DecidableEq

/-- Fresh placeholder instance, `AddressSet()` in `src/address_set_view.py`. -/
def StubAddressSet.empty : StubAddressSet := ⟨[]⟩

/-- Call of the placeholder `add(self, range)`: the body is `pass`, no state
change. -/
def StubAddressSet.add_range (s : StubAddressSet) (_range : AddressRange) : StubAddressSet := s

/-- Call of the placeholder `add(self, start, end)` (two positional
arguments collected by `*args`): the body is `pass`, no state change. -/
def StubAddressSet.add_pair (s : StubAddressSet) (_start _stop : Int) : StubAddressSet := s

/-- Python `AddressSetView.trim_start` (static method in
`src/address_set_view.py`): iterate the operand's ranges; keep a range whose
minimum lies beyond `addr`, truncate a range that straddles `addr` to
`[addr.next(), max]`, drop the rest — but accumulate into the module's
placeholder `AddressSet` whose `add` is a no-op (see `StubAddressSet`).
`compare_to` is the spec-modelled comparison (`Address.compare_to`). -/
def trim_start (set_ranges : List AddressRange) (addr : Int) : StubAddressSet :=
  set_ranges.foldl
    (fun trimmed_set range_ =>
      let min_addr := range_.get_min_address
      let max_addr := range_.get_max_address
      if Address.compare_to min_addr addr > 0 then trimmed_set.add_range range_
      else if Address.compare_to max_addr addr > 0 then
        trimmed_set.add_pair (Address.next addr) max_addr
      else trimmed_set)
    StubAddressSet.empty

/-! ### In-order traversal through rotations and reassembly -/

/-- Blackening the root does not change the traversal. -/
theorem inorder_setBlack (t : RBTree) : inorder (setBlack t) = inorder t := by
  cases t <;> rfl

/-- Reassembly only depends on the traversal of the focused subtree. -/
theorem inorder_plug_congr {t1 t2 : RBTree} :
    ∀ (path : List Frame), inorder t1 = inorder t2 →
      inorder (plug t1 path) = inorder (plug t2 path)
  | [], h => by simpa [plug] using h
  | f :: p, h => by
    obtain ⟨d, c, k, v, sib⟩ := f
    cases d <;>
      exact inorder_plug_congr p (by simp [inorder, h])

/-- The fixup loop preserves the traversal of the whole (reassembled) tree:
rotations rearrange the shape and recoloring touches only colors. -/
theorem inorder_insert_fixup :
    ∀ (path : List Frame) (z : RBTree),
      inorder (insert_fixup z path) = inorder (plug z path)
  | [], z => by simp [insert_fixup, inorder_setBlack, plug]
  | [f], z => by simp [insert_fixup, inorder_setBlack]
  | f :: g :: p, z => by
    obtain ⟨fd, fc, fk, fv, fs⟩ := f
    obtain ⟨gd, gc, gk, gv, gs⟩ := g
    by_cases hf : fc = RBColor.black
    · simp [insert_fixup, hf, inorder_setBlack]
    · have hfr : fc = RBColor.red := by cases fc <;> simp_all
      subst hfr
      cases gd with
      | left =>
        cases gs with
        | node uc uk uv ul ur =>
          cases uc with
          | red =>
            rw [show insert_fixup z
                (⟨fd, RBColor.red, fk, fv, fs⟩ :: ⟨Dir.left, gc, gk, gv,
                  RBTree.node RBColor.red uk uv ul ur⟩ :: p)
              = insert_fixup
                  (RBTree.node RBColor.red gk gv
                    (attach ⟨fd, RBColor.red, fk, fv, fs⟩ RBColor.black z)
                    (RBTree.node RBColor.black uk uv ul ur)) p from rfl]
            rw [inorder_insert_fixup p _]
            cases fd with
            | left =>
              show _ = inorder (plug (RBTree.node gc gk gv
                (RBTree.node RBColor.red fk fv z fs)
                (RBTree.node RBColor.red uk uv ul ur)) p)
              apply inorder_plug_congr
              simp [inorder, attach, List.append_assoc]
            | right =>
              show _ = inorder (plug (RBTree.node gc gk gv
                (RBTree.node RBColor.red fk fv fs z)
                (RBTree.node RBColor.red uk uv ul ur)) p)
              apply inorder_plug_congr
              simp [inorder, attach, List.append_assoc]
          | black =>
            cases fd with
            | left =>
              rw [show insert_fixup z
                  (⟨Dir.left, RBColor.red, fk, fv, fs⟩ :: ⟨Dir.left, gc, gk, gv,
                    RBTree.node RBColor.black uk uv ul ur⟩ :: p)
                = setBlack (plug (RBTree.node RBColor.black fk fv z
                    (RBTree.node RBColor.red gk gv fs
                      (RBTree.node RBColor.black uk uv ul ur))) p) from rfl]
              rw [inorder_setBlack]
              apply inorder_plug_congr
              simp [inorder, plug, List.append_assoc]
            | right =>
              cases z with
              | nil =>
                rw [show insert_fixup RBTree.nil
                    (⟨Dir.right, RBColor.red, fk, fv, fs⟩ :: ⟨Dir.left, gc, gk, gv,
                      RBTree.node RBColor.black uk uv ul ur⟩ :: p)
                  = setBlack (plug RBTree.nil
                      (⟨Dir.right, RBColor.red, fk, fv, fs⟩ :: ⟨Dir.left, gc, gk, gv,
                        RBTree.node RBColor.black uk uv ul ur⟩ :: p)) from rfl]
                rw [inorder_setBlack]
              | node zc zk zv zl zr =>
                rw [show insert_fixup (RBTree.node zc zk zv zl zr)
                    (⟨Dir.right, RBColor.red, fk, fv, fs⟩ :: ⟨Dir.left, gc, gk, gv,
                      RBTree.node RBColor.black uk uv ul ur⟩ :: p)
                  = setBlack (plug (RBTree.node RBColor.black zk zv
                      (RBTree.node RBColor.red fk fv fs zl)
                      (RBTree.node RBColor.red gk gv zr
                        (RBTree.node RBColor.black uk uv ul ur))) p) from rfl]
                rw [inorder_setBlack]
                apply inorder_plug_congr
                simp [inorder, plug, List.append_assoc]
        | nil =>
          cases fd with
          | left =>
            rw [show insert_fixup z
                (⟨Dir.left, RBColor.red, fk, fv, fs⟩ :: ⟨Dir.left, gc, gk, gv,
                  RBTree.nil⟩ :: p)
              = setBlack (plug (RBTree.node RBColor.black fk fv z
                  (RBTree.node RBColor.red gk gv fs RBTree.nil)) p) from rfl]
            rw [inorder_setBlack]
            apply inorder_plug_congr
            simp [inorder, plug, List.append_assoc]
          | right =>
            cases z with
            | nil =>
              rw [show insert_fixup RBTree.nil
                  (⟨Dir.right, RBColor.red, fk, fv, fs⟩ :: ⟨Dir.left, gc, gk, gv,
                    RBTree.nil⟩ :: p)
                = setBlack (plug RBTree.nil
                    (⟨Dir.right, RBColor.red, fk, fv, fs⟩ :: ⟨Dir.left, gc, gk, gv,
                      RBTree.nil⟩ :: p)) from rfl]
              rw [inorder_setBlack]
            | node zc zk zv zl zr =>
              rw [show insert_fixup (RBTree.node zc zk zv zl zr)
                  (⟨Dir.right, RBColor.red, fk, fv, fs⟩ :: ⟨Dir.left, gc, gk, gv,
                    RBTree.nil⟩ :: p)
                = setBlack (plug (RBTree.node RBColor.black zk zv
                    (RBTree.node RBColor.red fk fv fs zl)
                    (RBTree.node RBColor.red gk gv zr RBTree.nil)) p) from rfl]
              rw [inorder_setBlack]
              apply inorder_plug_congr
              simp [inorder, plug, List.append_assoc]
      | right =>
        cases gs with
        | node uc uk uv ul ur =>
          cases uc with
          | red =>
            rw [show insert_fixup z
                (⟨fd, RBColor.red, fk, fv, fs⟩ :: ⟨Dir.right, gc, gk, gv,
                  RBTree.node RBColor.red uk uv ul ur⟩ :: p)
              = insert_fixup
                  (RBTree.node RBColor.red gk gv
                    (RBTree.node RBColor.black uk uv ul ur)
                    (attach ⟨fd, RBColor.red, fk, fv, fs⟩ RBColor.black z)) p from rfl]
            rw [inorder_insert_fixup p _]
            cases fd with
            | left =>
              show _ = inorder (plug (RBTree.node gc gk gv
                (RBTree.node RBColor.red uk uv ul ur)
                (RBTree.node RBColor.red fk fv z fs)) p)
              apply inorder_plug_congr
              simp [inorder, attach, List.append_assoc]
            | right =>
              show _ = inorder (plug (RBTree.node gc gk gv
                (RBTree.node RBColor.red uk uv ul ur)
                (RBTree.node RBColor.red fk fv fs z)) p)
              apply inorder_plug_congr
              simp [inorder, attach, List.append_assoc]
          | black =>
            cases fd with
            | right =>
              rw [show insert_fixup z
                  (⟨Dir.right, RBColor.red, fk, fv, fs⟩ :: ⟨Dir.right, gc, gk, gv,
                    RBTree.node RBColor.black uk uv ul ur⟩ :: p)
                = setBlack (plug (RBTree.node RBColor.black fk fv
                    (RBTree.node RBColor.red gk gv
                      (RBTree.node RBColor.black uk uv ul ur) fs) z) p) from rfl]
              rw [inorder_setBlack]
              apply inorder_plug_congr
              simp [inorder, plug, List.append_assoc]
            | left =>
              cases z with
              | nil =>
                rw [show insert_fixup RBTree.nil
                    (⟨Dir.left, RBColor.red, fk, fv, fs⟩ :: ⟨Dir.right, gc, gk, gv,
                      RBTree.node RBColor.black uk uv ul ur⟩ :: p)
                  = setBlack (plug RBTree.nil
                      (⟨Dir.left, RBColor.red, fk, fv, fs⟩ :: ⟨Dir.right, gc, gk, gv,
                        RBTree.node RBColor.black uk uv ul ur⟩ :: p)) from rfl]
                rw [inorder_setBlack]
              | node zc zk zv zl zr =>
                rw [show insert_fixup (RBTree.node zc zk zv zl zr)
                    (⟨Dir.left, RBColor.red, fk, fv, fs⟩ :: ⟨Dir.right, gc, gk, gv,
                      RBTree.node RBColor.black uk uv ul ur⟩ :: p)
                  = setBlack (plug (RBTree.node RBColor.black zk zv
                      (RBTree.node RBColor.red gk gv
                        (RBTree.node RBColor.black uk uv ul ur) zl)
                      (RBTree.node RBColor.red fk fv zr fs)) p) from rfl]
                rw [inorder_setBlack]
                apply inorder_plug_congr
                simp [inorder, plug, List.append_assoc]
        | nil =>
          cases fd with
          | right =>
            rw [show insert_fixup z
                (⟨Dir.right, RBColor.red, fk, fv, fs⟩ :: ⟨Dir.right, gc, gk, gv,
                  RBTree.nil⟩ :: p)
              = setBlack (plug (RBTree.node RBColor.black fk fv
                  (RBTree.node RBColor.red gk gv RBTree.nil fs) z) p) from rfl]
            rw [inorder_setBlack]
            apply inorder_plug_congr
            simp [inorder, plug, List.append_assoc]
          | left =>
            cases z with
            | nil =>
              rw [show insert_fixup RBTree.nil
                  (⟨Dir.left, RBColor.red, fk, fv, fs⟩ :: ⟨Dir.right, gc, gk, gv,
                    RBTree.nil⟩ :: p)
                = setBlack (plug RBTree.nil
                    (⟨Dir.left, RBColor.red, fk, fv, fs⟩ :: ⟨Dir.right, gc, gk, gv,
                      RBTree.nil⟩ :: p)) from rfl]
              rw [inorder_setBlack]
            | node zc zk zv zl zr =>
              rw [show insert_fixup (RBTree.node zc zk zv zl zr)
                  (⟨Dir.left, RBColor.red, fk, fv, fs⟩ :: ⟨Dir.right, gc, gk, gv,
                    RBTree.nil⟩ :: p)
                = setBlack (plug (RBTree.node RBColor.black zk zv
                    (RBTree.node RBColor.red gk gv RBTree.nil zl)
                    (RBTree.node RBColor.red fk fv zr fs)) p) from rfl]
              rw [inorder_setBlack]
              apply inorder_plug_congr
              simp [inorder, plug, List.append_assoc]

/-- The descent of `insert` reaches exactly the leaf position of plain BST
insertion: reassembling the new red node along the recorded path gives the
plain-inserted tree. -/
theorem plug_descendAux :
    ∀ (t : RBTree) (k v : Int) (path : List Frame),
      plug (RBTree.node RBColor.red k v RBTree.nil RBTree.nil) (descendAux t k path)
        = plug (bstInsertPlain t k v) path
  | RBTree.nil, k, v, path => by simp [descendAux, bstInsertPlain]
  | RBTree.node c k0 v0 l r, k, v, path => by
    by_cases h : k < k0
    · simpa [descendAux, bstInsertPlain, h, plug] using
        plug_descendAux l k v (⟨Dir.left, c, k0, v0, r⟩ :: path)
    · simpa [descendAux, bstInsertPlain, h, plug] using
        plug_descendAux r k v (⟨Dir.right, c, k0, v0, l⟩ :: path)

/-- The real insert and plain BST insert produce the same in-order
traversal. -/
theorem inorder_insert (t : RBTree) (k v : Int) :
    inorder (RedBlackTree.insert t k v) = inorder (bstInsertPlain t k v) := by
  rw [RedBlackTree.insert, inorder_insert_fixup, plug_descendAux]
  rfl

/-! ### The list-level effect of one insertion -/

/-- Inserting past an entry whose key exceeds `k` never reaches it. -/
theorem seqInsert_append_of_gt {k v : Int} {c : Int × Int} (hc : ¬ c.1 ≤ k) :
    ∀ (A B : List (Int × Int)), seqInsert (A ++ c :: B) k v = seqInsert A k v ++ c :: B
  | [], B => by simp [seqInsert, hc]
  | x :: A, B => by
    by_cases hx : x.1 ≤ k <;>
      simp [seqInsert, hx, seqInsert_append_of_gt hc A B]

/-- Inserting skips over a prefix of entries with keys `≤ k`. -/
theorem seqInsert_append_of_le {k v : Int} :
    ∀ (A B : List (Int × Int)), (∀ a ∈ A, a.1 ≤ k) →
      seqInsert (A ++ B) k v = A ++ seqInsert B k v
  | [], B, _ => by simp
  | x :: A, B, h => by
    have hx : x.1 ≤ k := h x (by simp)
    simp [seqInsert, hx, seqInsert_append_of_le A B (fun a ha => h a (by simp [ha]))]

/-- On a key-sorted tree, plain BST insertion edits the traversal exactly as
`seqInsert` edits the list. -/
theorem inorder_bstInsertPlain_of_sorted :
    ∀ (t : RBTree) (k v : Int), keysSorted (inorder t) →
      inorder (bstInsertPlain t k v) = seqInsert (inorder t) k v
  | RBTree.nil, k, v, _ => by simp [bstInsertPlain, inorder, seqInsert]
  | RBTree.node c k0 v0 l r, k, v, hs => by
    rw [inorder, keysSorted, List.pairwise_append] at hs
    obtain ⟨hA, hCB, hcross⟩ := hs
    have hB : keysSorted (inorder r) := (List.pairwise_cons.mp hCB).2
    by_cases h : k < k0
    · rw [bstInsertPlain, if_pos h, inorder,
        inorder_bstInsertPlain_of_sorted l k v hA, inorder,
        seqInsert_append_of_gt (by simp; omega)]
    · have hk0 : k0 ≤ k := by omega
      have hAle : ∀ a ∈ inorder l, a.1 ≤ k := by
        intro a ha
        exact le_trans (hcross a ha (k0, v0) (by simp)) hk0
      rw [bstInsertPlain, if_neg h, inorder,
        inorder_bstInsertPlain_of_sorted r k v hB, inorder,
        seqInsert_append_of_le _ _ hAle, seqInsert, if_pos hk0]

/-- One list insertion permutes to consing the new pair. -/
theorem seqInsert_perm (l : List (Int × Int)) (k v : Int) :
    (seqInsert l k v).Perm ((k, v) :: l) := by
  induction l with
  | nil => simp [seqInsert]
  | cons x xs ih =>
    by_cases hx : x.1 ≤ k
    · rw [seqInsert, if_pos hx]
      exact (ih.cons x).trans (List.Perm.swap _ _ _)
    · rw [seqInsert, if_neg hx]

/-- List insertion preserves key-sortedness. -/
theorem seqInsert_sorted {l : List (Int × Int)} (k v : Int) (h : keysSorted l) :
    keysSorted (seqInsert l k v) := by
  induction l with
  | nil => simp [seqInsert, keysSorted]
  | cons x xs ih =>
    rw [keysSorted, List.pairwise_cons] at h
    obtain ⟨hx_all, hxs⟩ := h
    by_cases hx : x.1 ≤ k
    · rw [seqInsert, if_pos hx, keysSorted, List.pairwise_cons]
      refine ⟨?_, ih hxs⟩
      intro a ha
      rcases List.mem_cons.mp ((seqInsert_perm xs k v).mem_iff.mp ha) with rfl | ha2
      · exact hx
      · exact hx_all a ha2
    · rw [seqInsert, if_neg hx, keysSorted, List.pairwise_cons]
      refine ⟨?_, ?_⟩
      · intro a ha
        rcases List.mem_cons.mp ha with rfl | ha2
        · omega
        · exact le_trans (by omega) (hx_all a ha2)
      · exact List.pairwise_cons.mpr ⟨hx_all, hxs⟩

/-- List insertion adds exactly the new interval's length to the sum. -/
theorem sumLens_seqInsert (l : List (Int × Int)) (k v : Int) :
    sumLens (seqInsert l k v) = sumLens l + (v - k + 1) := by
  have h := ((seqInsert_perm l k v).map (fun p => p.2 - p.1 + 1)).sum_eq
  rw [sumLens, h]
  simp [sumLens]
  ring

/-- Plain BST insertion permutes the traversal to consing the new pair,
regardless of any sortedness. -/
theorem inorder_bstInsertPlain_perm :
    ∀ (t : RBTree) (k v : Int),
      (inorder (bstInsertPlain t k v)).Perm ((k, v) :: inorder t)
  | RBTree.nil, k, v => by simp [bstInsertPlain, inorder]
  | RBTree.node c k0 v0 l r, k, v => by
    by_cases h : k < k0
    · rw [bstInsertPlain, if_pos h, inorder, inorder]
      exact (inorder_bstInsertPlain_perm l k v).append_right _
    · rw [bstInsertPlain, if_neg h, inorder, inorder]
      have h1 := (List.Perm.append_left (inorder l)
        ((inorder_bstInsertPlain_perm r k v).cons (k0, v0)))
      refine h1.trans ?_
      have h2 : inorder l ++ (k0, v0) :: (k, v) :: inorder r
          = (inorder l ++ [(k0, v0)]) ++ (k, v) :: inorder r := by simp
      have h3 : inorder l ++ (k0, v0) :: inorder r
          = (inorder l ++ [(k0, v0)]) ++ inorder r := by simp
      rw [h2, h3]
      exact List.perm_middle

/-! ### The `AddressSet` invariant -/

/-- The empty set satisfies the invariant. -/
theorem SetInv_empty : SetInv AddressSet.empty := by
  constructor <;> simp [SetInv, keysSorted, sumLens, AddressSet.empty, inorder]

/-- On an invariant-satisfying set, `add` edits the traversal by one
`seqInsert`. -/
theorem inorder_add_of_sorted {s : AddressSet} (h : keysSorted (inorder s.tree))
    (r : AddressRange) :
    inorder (s.add r).tree = seqInsert (inorder s.tree) r.start r.«end» := by
  show inorder (RedBlackTree.insert s.tree r.start r.«end») = _
  rw [inorder_insert, inorder_bstInsertPlain_of_sorted _ _ _ h]

/-- `add` preserves the invariant. -/
theorem SetInv_add {s : AddressSet} (h : SetInv s) (r : AddressRange) :
    SetInv (s.add r) := by
  obtain ⟨hs, hc⟩ := h
  have hio := inorder_add_of_sorted hs r
  constructor
  · rw [hio]
    exact seqInsert_sorted _ _ hs
  · show s.address_count + r.get_length = sumLens (inorder (s.add r).tree)
    rw [hio, sumLens_seqInsert, hc, AddressRange.get_length]

/-- Any sequence of `add` calls preserves the invariant. -/
theorem SetInv_applyAdds {s : AddressSet} (h : SetInv s) :
    ∀ (adds : List AddressRange), SetInv (applyAdds s adds)
  | [] => h
  | r :: rs => SetInv_applyAdds (SetInv_add h r) rs

/-- Construction (empty or from one initial range) establishes the
invariant. -/
theorem SetInv_mkAddressSet (o : Option AddressRange) : SetInv (mkAddressSet o) := by
  cases o with
  | none => exact SetInv_empty
  | some r => exact SetInv_add SetInv_empty r

/-! ### Claims -/

/-- Claim C1: the spec asserts that after every `add` the stored ranges are
pairwise disjoint and non-adjacent (`R1.end.next() < R2.start`).  The code
violates this: `add` inserts verbatim and never merges.  After
`add([0,5]); add([3,10])` the set stores both overlapping ranges, and
`Address.next 5 < 3` fails. -/
theorem claim_C1 :
    (applyAdds AddressSet.empty [⟨0, 5⟩, ⟨3, 10⟩]).get_address_ranges
        = [⟨0, 5⟩, ⟨3, 10⟩]
      ∧ ¬ Address.next 5 < 3 := by
  constructor
  · decide
  · decide

/-- Claim C2: the spec asserts `add(r); add(r)` equals `add(r)`.  The code
stores a duplicate node and doubles the count: after adding `[0,5]` twice
the ranges are `[0,5],[0,5]` with count `12`, not `[0,5]` with count `6`. -/
theorem claim_C2 :
    (applyAdds AddressSet.empty [⟨0, 5⟩, ⟨0, 5⟩]).get_address_ranges
        = [⟨0, 5⟩, ⟨0, 5⟩]
      ∧ (applyAdds AddressSet.empty [⟨0, 5⟩]).get_address_ranges = [⟨0, 5⟩]
      ∧ (applyAdds AddressSet.empty [⟨0, 5⟩, ⟨0, 5⟩]).get_num_addresses = 12
      ∧ (applyAdds AddressSet.empty [⟨0, 5⟩]).get_num_addresses = 6 := by
  refine ⟨by decide, by decide, by decide, by decide⟩

/-- Claim C4: the spec asserts containment is monotone under `add`.  The code
violates it: with `A = add([0,100]); add([50,60])`, `contains(90)` is true,
but adding `[70,80]` triggers a fixup rotation that moves `[0,100]` into the
left subtree of `[50,60]`; the search for `90` then descends right past
`[50,60]` and misses `[0,100]`, so `contains(90)` becomes false. -/
theorem claim_C4 :
    (applyAdds AddressSet.empty [⟨0, 100⟩, ⟨50, 60⟩]).containsAddr 90 = true
      ∧ ((applyAdds AddressSet.empty [⟨0, 100⟩, ⟨50, 60⟩]).add ⟨70, 80⟩).containsAddr 90
          = false := by
  refine ⟨by decide, by decide⟩

/-- Claim C5: the spec scenario says `trim_start({[0,100]}, 50)` yields
`{[51,100]}`.  The code cannot produce it: `trim_start` accumulates into the
placeholder `AddressSet` of `src/address_set_view.py`, whose `add` is
`pass`, so the returned set holds no ranges at all. -/
theorem claim_C5 :
    (trim_start [⟨0, 100⟩] 50).ranges = []
      ∧ (trim_start [⟨0, 100⟩] 50).ranges ≠ [⟨51, 100⟩] := by
  refine ⟨by decide, by decide⟩

/-- Claim C3: after any construction (empty or with one initial range) and
any sequence of `add` calls, `get_num_addresses()` equals the sum of
`get_length()` over the ranges yielded by `get_address_ranges()`. -/
theorem claim_C3 (o : Option AddressRange) (adds : List AddressRange) :
    (applyAdds (mkAddressSet o) adds).get_num_addresses
      = (((applyAdds (mkAddressSet o) adds).get_address_ranges).map
          AddressRange.get_length).sum := by
  have h := (SetInv_applyAdds (SetInv_mkAddressSet o) adds).2
  rw [AddressSet.get_num_addresses, h, AddressSet.get_address_ranges, sumLens,
    List.map_map]
  rfl

/-- Claim C10: after any construction and any sequence of `add` calls, the
ranges yielded by `get_address_ranges()` have non-decreasing start
addresses. -/
theorem claim_C10 (o : Option AddressRange) (adds : List AddressRange) :
    List.Pairwise (fun r1 r2 : AddressRange => r1.start ≤ r2.start)
      ((applyAdds (mkAddressSet o) adds).get_address_ranges) := by
  have h := (SetInv_applyAdds (SetInv_mkAddressSet o) adds).1
  rw [keysSorted] at h
  rw [AddressSet.get_address_ranges]
  exact List.pairwise_map.mpr h

/-- Claim C7: constructing an `AddressRange` with `end < start` always fails
with a distinguishable error and the bounds are never swapped; with
`start ≤ end` it succeeds and stores both bounds unchanged. -/
theorem claim_C7 (s e : Int) :
    (e < s → mkAddressRange s e
        = Except.error "End address must not be less than start address")
      ∧ (s ≤ e → mkAddressRange s e = Except.ok ⟨s, e⟩) := by
  constructor
  · intro h
    rw [mkAddressRange, if_pos h]
  · intro h
    rw [mkAddressRange, if_neg (by omega)]

/-- Witness for C7 at `(5, 3)` (invalid) and `(2, 7)` (valid). -/
theorem claim_C7_witness :
    mkAddressRange 5 3
        = Except.error "End address must not be less than start address"
      ∧ mkAddressRange 2 7 = Except.ok ⟨2, 7⟩ :=
  ⟨(claim_C7 5 3).1 (by decide), (claim_C7 2 7).2 (by decide)⟩

/-- Claim C9: for every set and every inverted pair `end < start`, the
two-address `contains` overload returns `True` without raising: the loop
body never runs. -/
theorem claim_C9 (s : AddressSet) (a b : Int) (h : b < a) :
    s.contains (ContainsArgs.pair a b) = Except.ok true := by
  have hval : s.containsRange a b = true := by
    rw [AddressSet.containsRange]
    simp [show ¬ a ≤ b by omega]
  rw [AddressSet.contains, hval]

/-- Witness for C9: the empty set with the inverted pair `(5, 3)`. -/
theorem claim_C9_witness :
    AddressSet.empty.contains (ContainsArgs.pair 5 3) = Except.ok true :=
  claim_C9 AddressSet.empty 5 3 (by decide)

/-! ### Intersect as a fold over emitted pairs -/

/-- One `add` permutes the yielded ranges to consing the added range. -/
theorem ranges_add_perm (s : AddressSet) (r : AddressRange) :
    ((s.add r).get_address_ranges).Perm (r :: s.get_address_ranges) := by
  rw [AddressSet.get_address_ranges, AddressSet.get_address_ranges]
  show ((inorder (RedBlackTree.insert s.tree r.start r.«end»)).map _).Perm _
  rw [inorder_insert]
  simpa using (inorder_bstInsertPlain_perm s.tree r.start r.«end»).map
    (fun p => (⟨p.1, p.2⟩ : AddressRange))

/-- Folding `add` over a list permutes the yielded ranges to appending the
list. -/
theorem ranges_foldl_add_perm :
    ∀ (l : List AddressRange) (s : AddressSet),
      ((l.foldl AddressSet.add s).get_address_ranges).Perm
        (s.get_address_ranges ++ l)
  | [], s => by simp
  | r :: l, s => by
    refine (ranges_foldl_add_perm l (s.add r)).trans ?_
    refine ((ranges_add_perm s r).append_right l).trans ?_
    exact List.perm_middle.symm

/-- The inner `intersect` loop is the fold of `add` over the emitted pairs of
one outer range. -/
theorem intersect_inner_foldl (r1 : AddressRange) :
    ∀ (l : List AddressRange) (st : AddressSet),
      l.foldl
        (fun result r2 =>
          let s := max r1.get_min_address r2.get_min_address
          let e := min r1.get_max_address r2.get_max_address
          if s ≤ e then result.add ⟨s, e⟩ else result) st
      = (l.filterMap (fun r2 => intersectStep r1 r2)).foldl AddressSet.add st
  | [], st => rfl
  | r2 :: l, st => by
    rw [List.foldl_cons, List.filterMap_cons]
    by_cases h : max r1.get_min_address r2.get_min_address
        ≤ min r1.get_max_address r2.get_max_address
    · rw [show intersectStep r1 r2
        = some ⟨max r1.get_min_address r2.get_min_address,
            min r1.get_max_address r2.get_max_address⟩ by
          rw [intersectStep]; simp [h]]
      simp only [if_pos h, List.foldl_cons]
      exact intersect_inner_foldl r1 l _
    · rw [show intersectStep r1 r2 = none by rw [intersectStep]; simp [h]]
      simp only [if_neg h]
      exact intersect_inner_foldl r1 l st

/-- The nested `intersect` loops are the fold of `add` over all emitted
pairs. -/
theorem intersect_outer_foldl (b : AddressSet) :
    ∀ (l : List AddressRange) (st : AddressSet),
      l.foldl
        (fun result r1 =>
          b.get_address_ranges.foldl
            (fun result r2 =>
              let s := max r1.get_min_address r2.get_min_address
              let e := min r1.get_max_address r2.get_max_address
              if s ≤ e then result.add ⟨s, e⟩ else result) result) st
      = (l.flatMap (fun r1 =>
          b.get_address_ranges.filterMap (fun r2 => intersectStep r1 r2))).foldl
            AddressSet.add st
  | [], st => rfl
  | r1 :: l, st => by
    rw [List.foldl_cons, List.flatMap_cons, List.foldl_append,
      intersect_inner_foldl r1]
    exact intersect_outer_foldl b l _

/-- The result of `intersect` is the fold of `add` over `intersectEmitted`. -/
theorem intersect_eq_foldl (a b : AddressSet) :
    a.intersect b = (intersectEmitted a b).foldl AddressSet.add AddressSet.empty := by
  rw [AddressSet.intersect, intersectEmitted, intersect_outer_foldl]

/-- Claim C6: on `A = {[10,20],[30,40]}` and `B = {[15,35]}`, `intersect`
yields exactly `[15,20]` then `[30,35]`; and in general the multiset of
stored result ranges is exactly one emitted range `[max(starts), min(ends)]`
per overlapping pair of operand ranges. -/
theorem claim_C6 :
    ((applyAdds AddressSet.empty [⟨10, 20⟩, ⟨30, 40⟩]).intersect
        (applyAdds AddressSet.empty [⟨15, 35⟩])).get_address_ranges
      = [⟨15, 20⟩, ⟨30, 35⟩]
      ∧ ∀ (a b : AddressSet),
          ((a.intersect b).get_address_ranges).Perm (intersectEmitted a b) := by
  constructor
  · decide
  · intro a b
    rw [intersect_eq_foldl]
    simpa using ranges_foldl_add_perm (intersectEmitted a b) AddressSet.empty

/-! ### Frame conditions of the two-operand methods -/

/-- A fold whose body only assigns into `result` leaves the receiver and the
operand untouched and folds the plain body over `result`. -/
theorem union_method_fold :
    ∀ (l : List AddressRange) (x y z0 : AddressSet),
      l.foldl (fun st r => { st with result := st.result.add r })
          (⟨x, y, z0⟩ : MethodState)
        = ⟨x, y, l.foldl AddressSet.add z0⟩
  | [], _, _, _ => rfl
  | r :: l, x, y, z0 => by
    rw [List.foldl_cons, List.foldl_cons]
    exact union_method_fold l x y (z0.add r)

/-- The inner `intersect` loop only assigns into `result`. -/
theorem intersect_method_inner (r1 : AddressRange) :
    ∀ (l : List AddressRange) (x y z0 : AddressSet),
      l.foldl
        (fun st r2 =>
          let s := max r1.get_min_address r2.get_min_address
          let e := min r1.get_max_address r2.get_max_address
          if s ≤ e then { st with result := st.result.add ⟨s, e⟩ } else st)
        (⟨x, y, z0⟩ : MethodState)
      = ⟨x, y,
          l.foldl
            (fun result r2 =>
              let s := max r1.get_min_address r2.get_min_address
              let e := min r1.get_max_address r2.get_max_address
              if s ≤ e then result.add ⟨s, e⟩ else result) z0⟩
  | [], _, _, _ => rfl
  | r2 :: l, x, y, z0 => by
    rw [List.foldl_cons, List.foldl_cons]
    by_cases h : max r1.get_min_address r2.get_min_address
        ≤ min r1.get_max_address r2.get_max_address
    · simp only [if_pos h]
      exact intersect_method_inner r1 l x y _
    · simp only [if_neg h]
      exact intersect_method_inner r1 l x y z0

/-- The nested `intersect` loops only assign into `result`. -/
theorem intersect_method_outer :
    ∀ (l : List AddressRange) (x y z0 : AddressSet),
      l.foldl
        (fun st r1 =>
          st.otherSet.get_address_ranges.foldl
            (fun st r2 =>
              let s := max r1.get_min_address r2.get_min_address
              let e := min r1.get_max_address r2.get_max_address
              if s ≤ e then { st with result := st.result.add ⟨s, e⟩ } else st)
            st)
        (⟨x, y, z0⟩ : MethodState)
      = ⟨x, y,
          l.foldl
            (fun result r1 =>
              y.get_address_ranges.foldl
                (fun result r2 =>
                  let s := max r1.get_min_address r2.get_min_address
                  let e := min r1.get_max_address r2.get_max_address
                  if s ≤ e then result.add ⟨s, e⟩ else result) result) z0⟩
  | [], _, _, _ => rfl
  | r1 :: l, x, y, z0 => by
    rw [List.foldl_cons, List.foldl_cons]
    have hinner := intersect_method_inner r1 (y.get_address_ranges) x y z0
    rw [show ((⟨x, y, z0⟩ : MethodState).otherSet.get_address_ranges.foldl
        (fun st r2 =>
          let s := max r1.get_min_address r2.get_min_address
          let e := min r1.get_max_address r2.get_max_address
          if s ≤ e then { st with result := st.result.add ⟨s, e⟩ } else st)
        (⟨x, y, z0⟩ : MethodState))
      = (⟨x, y,
          y.get_address_ranges.foldl
            (fun result r2 =>
              let s := max r1.get_min_address r2.get_min_address
              let e := min r1.get_max_address r2.get_max_address
              if s ≤ e then result.add ⟨s, e⟩ else result) z0⟩ : MethodState)
      from hinner]
    exact intersect_method_outer l x y _

/-- Claim C8: `intersect` and `union` never mutate either operand: with the
receiver and operand threaded as explicit state, the final state carries
them unchanged (hence their stored ranges and `get_num_addresses()` are
identical before and after), alongside a result built afresh. -/
theorem claim_C8 (a b : AddressSet) :
    a.intersect_method b = ⟨a, b, a.intersect b⟩
      ∧ a.union_method b = ⟨a, b, a.union b⟩ := by
  constructor
  · exact intersect_method_outer (a.get_address_ranges) a b AddressSet.empty
  · have h1 := union_method_fold (a.get_address_ranges) a b AddressSet.empty
    have h2 := union_method_fold (b.get_address_ranges) a b
      ((a.get_address_ranges).foldl AddressSet.add AddressSet.empty)
    exact Eq.trans
      (congrArg
        (fun st : MethodState =>
          st.otherSet.get_address_ranges.foldl
            (fun (st : MethodState) (r : AddressRange) =>
              { st with result := st.result.add r }) st) h1)
      h2
